import Mathlib

/-!
Shallow embedding of the StyleTalk inference pipeline
(`src/inference_for_demo_2_auto.py` and `src/inference_for_demo_2_gpufix.py`),
with theorems settling the frozen claims about its specification.

Data model: a time series is a `List` of numeric row vectors (`List Int` for
parameter rows, `List ℚ` for pixel data); a state dict is an association list
from keys (`List Char`) to values.  Fallible code is embedded in
`Except String`.
-/

namespace STL

/-! ## Definitions -/

/-- Pose alignment from `generate_expression_params` (lines 126-130 of the auto
variant, line 100 of the gpufix variant):
`if len(pose) >= len(gen_exp): selected_pose = pose[:len(gen_exp)]`
`else: selected_pose = np.vstack([pose, np.tile(pose[-1], (len(gen_exp) - len(pose), 1))])`.
`pose[-1]` on an empty array raises an IndexError, embedded as `Except.error`. -/
def alignPose (pose : List (List Int)) (targetLen : Nat) : Except String (List (List Int)) :=
  if pose.length ≥ targetLen then
    Except.ok (pose.take targetLen)
  else
    match pose.getLast? with
    | none => Except.error "IndexError"
    | some last => Except.ok (pose ++ List.replicate (targetLen - pose.length) last)

/-- Aligned artifact built by `generate_expression_params`:
`gen_exp_pose = np.concatenate((gen_exp, selected_pose), axis=1)`, i.e. row-wise
concatenation of each expression row with the corresponding aligned pose row. -/
def alignedArtifact (genExp pose : List (List Int)) : Except String (List (List Int)) :=
  (alignPose pose genExp.length).map (fun sel => List.zipWith (· ++ ·) genExp sel)

/-- Fuel-indexed worker for `chunksOf`; the fuel is the list length, enough
whenever the chunk size is at least 1. -/
def chunksOfGo (n : Nat) : Nat → List α → List (List α)
  | _, [] => []
  | 0, l => [l]
  | fuel + 1, x :: xs => (x :: xs).take n :: chunksOfGo n fuel ((x :: xs).drop n)

/-- `torch.split(target_exp_concat, split_size, dim=0)` along dim 0:
consecutive chunks of size `n`, the last chunk possibly smaller; the empty
tensor yields no chunks. -/
def chunksOf (n : Nat) (l : List α) : List (List α) :=
  chunksOfGo n l.length l

/-- Modelled from the spec: `obtain_seq_index` is imported from `core/utils.py`,
which is not under `src/`; spec §4.1 gives the algorithm: for `offset` in
`[-radius, radius]`, the candidate index is `center + offset`, clamped to `0`
below and to `sequence_length - 1` above. -/
def obtainSeqIndex (center : Int) (numFrames : Nat) (radius : Nat) : List Int :=
  (List.range (2 * radius + 1)).map fun (o : Nat) =>
    if center - (radius : Int) + (o : Int) < 0 then 0
    else if (numFrames : Int) ≤ center - (radius : Int) + (o : Int) then (numFrames : Int) - 1
    else center - (radius : Int) + (o : Int)

/-- Modelled from the spec: `get_video_style_clip` is imported from
`core/utils.py`, which is not under `src/`; spec §4.3: if the available style
length is at least `max_len`, take exactly `max_len` consecutive vectors from
`start_idx` and no mask; otherwise take all available vectors, pad to `max_len`
with the zero vector (dimension `d`), and mask real positions `true`, padding
`false`. -/
def getVideoStyleClip (source : List (List Int)) (d styleMaxLen startIdx : Nat) :
    List (List Int) × Option (List Bool) :=
  if styleMaxLen ≤ source.length then
    ((source.drop startIdx).take styleMaxLen, none)
  else
    (source ++ List.replicate (styleMaxLen - source.length) (List.replicate d 0),
     some (List.replicate source.length true ++
       List.replicate (styleMaxLen - source.length) false))

/-- Key of the content-encoder subcomponent in the checkpoint
(`"content_encoder."`, 16 characters, compared against `k[:16]`). -/
def contentKey : List Char := "content_encoder.".toList

/-- Key of the style-encoder subcomponent (`"style_encoder."`, 14 characters,
compared against `k[:14]`). -/
def styleKey : List Char := "style_encoder.".toList

/-- Key of the decoder subcomponent (`"decoder."`, 8 characters, compared
against `k[:8]`). -/
def decoderKey : List Char := "decoder.".toList

/-- Sub-mapping extraction from `get_eval_model` (lines 25/27/29 auto,
33-35 gpufix): a python dict comprehension
`{k[n:]: v for k, v in model_state_dict.items() if k[:n] == p}`. -/
def subDict (n : Nat) (p : List Char) (sd : List (List Char × V)) : List (List Char × V) :=
  (sd.filter (fun kv => kv.1.take n == p)).map (fun kv => (kv.1.drop n, kv.2))

/-- Modelled from the spec: `load_state_dict(..., strict=True)` is library
code, not under `src/`; spec §6 requires that loading fail loudly if a
required parameter name is absent from its target sub-mapping. -/
def loadStrict (required : List (List Char)) (sub : List (List Char × V)) :
    Except String Unit :=
  if required.all (fun r => sub.any (fun kv => kv.1 == r)) then Except.ok ()
  else Except.error "Missing key(s) in state_dict"

/-- Shell command issued by `render_video` for muxing (line 77 auto, 70 gpufix). -/
def ffmpegCmd (wavPath outputPath : String) : String :=
  "ffmpeg -loglevel quiet -y -i silent.mp4 -i " ++ wavPath ++ " -shortest " ++ outputPath

/-- Observable effects of the mux tail of `render_video`. -/
inductive MuxEffect : Type
  | writeVideo (path : String)
  | runShell (cmd : String) (exitCode : Int)
  | removeFile (path : String)
deriving DecidableEq

/-- Mux tail of `render_video` (lines 72-78 auto, 65-71 gpufix): the effect
trace, paired with the exception the python function raises, if any.
`os.system` returns the shell exit status without raising, the returned value
is discarded, and `os.remove` runs unconditionally afterwards. -/
def muxStep (silent : Bool) (outputPath wavPath : String) (ffmpegExit : Int) :
    List MuxEffect × Option String :=
  if silent then
    ([MuxEffect.writeVideo outputPath], none)
  else
    ([MuxEffect.writeVideo "silent.mp4",
      MuxEffect.runShell (ffmpegCmd wavPath outputPath) ffmpegExit,
      MuxEffect.removeFile "silent.mp4"], none)

/-- Pixel clamp `clamp_(-1, 1)` applied to the generator output
(line 67 auto, 60 gpufix). -/
def clampPix (x : ℚ) : ℚ := max (-1) (min x 1)

/-- End-to-end pixel map of `render_video`: clamp to `[-1, 1]`, then the
affine map `(x + 1) / 2 * 255` (line 70 auto, 63 gpufix). -/
def transformPix (x : ℚ) : ℚ := (clampPix x + 1) / 2 * 255

/-- Truncation toward zero, the rounding used when a float tensor is cast to
an integer dtype. -/
def truncTowardZero (q : ℚ) : ℤ := if 0 ≤ q then ⌊q⌋ else -⌊-q⌋

/-- Conversion `.to(torch.uint8)`: truncate toward zero, then wrap modulo 256. -/
def toUint8 (q : ℚ) : ℤ := truncTowardZero q % 256

/-- Per-frame window tensors of `render_video` (lines 53-60 auto, 51-52
gpufix): for each frame index, gather the rows of the expression sequence at
the window indices and transpose (`.permute(1, 0)`). -/
def buildWindows (expSeq : List (List ℚ)) (radius : Nat) : List (List (List ℚ)) :=
  (List.range expSeq.length).map fun (i : Nat) =>
    List.transpose ((obtainSeqIndex (i : Int) expSeq.length radius).map
      (fun j => expSeq.getD j.toNat []))

/-- Batched rendering loop of the auto variant (lines 53-70): build windows,
split into chunks of `splitSize`, run the per-frame image generator `netG` on
each chunk, clamp, concatenate in chunk order, then normalize each pixel with
`(x + 1) / 2 * 255` and cast to uint8. -/
def renderVideoAuto (netG : List (List ℚ) → List ℚ) (expSeq : List (List ℚ))
    (radius splitSize : Nat) : List (List ℤ) :=
  (((chunksOf splitSize (buildWindows expSeq radius)).map
      (fun chunk => chunk.map (fun w => (netG w).map clampPix))).flatten).map
    (fun img => img.map (fun p => toUint8 ((p + 1) / 2 * 255)))

/-- Batched rendering loop of the gpufix variant (lines 51-63): the same
window construction, chunking, per-chunk generation, clamp, concatenation and
normalization, written with list comprehensions; it differs from the auto
variant only in device placement, which the embedding abstracts away. -/
def renderVideoGpufix (netG : List (List ℚ) → List ℚ) (expSeq : List (List ℚ))
    (radius splitSize : Nat) : List (List ℤ) :=
  (((chunksOf splitSize ((List.range expSeq.length).map fun (i : Nat) =>
      List.transpose ((obtainSeqIndex (i : Int) expSeq.length radius).map
        (fun j => expSeq.getD j.toNat [])))).map
      (fun chunk => chunk.map (fun w => (netG w).map clampPix))).flatten).map
    (fun img => img.map (fun p => toUint8 ((p + 1) / 2 * 255)))

/-- Python slice `s[-n:]`: the last `n` characters, or the whole string when
it is shorter than `n`. -/
def lastChars (n : Nat) (s : List Char) : List Char := s.drop (s.length - n)

/-- Pose loading of the auto variant (lines 118-123): `pose_ext = pose_path[-3:]`,
load for `"npy"`, convert for `"mat"`, otherwise `pose` stays `None` and the
subsequent `len(pose)` raises, embedded as `none`. -/
def loadPoseAuto (npyLoad matLoad : List Char → List (List Int)) (path : List Char) :
    Option (List (List Int)) :=
  if lastChars 3 path = "npy".toList then some (npyLoad path)
  else if lastChars 3 path = "mat".toList then some (matLoad path)
  else none

/-- Pose loading of the gpufix variant (line 99):
`pose = np.load(pose_path) if pose_path.endswith("npy") else get_pose_params(pose_path)`. -/
def loadPoseGpufix (npyLoad matLoad : List Char → List (List Int)) (path : List Char) :
    List (List Int) :=
  if "npy".toList.isSuffixOf path then npyLoad path else matLoad path

/-- Tail of `generate_expression_params` in the auto variant (lines 118-133):
load the pose by extension, then align and concatenate with the decoder
output. -/
def generateAutoTail (npyLoad matLoad : List Char → List (List Int))
    (genExp : List (List Int)) (path : List Char) :
    Option (Except String (List (List Int))) :=
  (loadPoseAuto npyLoad matLoad path).map (fun pose => alignedArtifact genExp pose)

/-- Tail of `generate_expression_params` in the gpufix variant (lines 99-102). -/
def generateGpufixTail (npyLoad matLoad : List Char → List (List Int))
    (genExp : List (List Int)) (path : List Char) :
    Except String (List (List Int)) :=
  alignedArtifact genExp (loadPoseGpufix npyLoad matLoad path)

/-! ## Helper lemmas -/

theorem chunksOfGo_flatten (n : Nat) (hn : 1 ≤ n) :
    ∀ (fuel : Nat) (l : List α), l.length ≤ fuel →
      (chunksOfGo n fuel l).flatten = l := by
  intro fuel
  induction fuel with
  | zero =>
    intro l hl
    have : l = [] := List.length_eq_zero.mp (Nat.le_zero.mp hl)
    subst this
    simp [chunksOfGo]
  | succ f ih =>
    intro l hl
    cases l with
    | nil => simp [chunksOfGo]
    | cons x xs =>
      simp only [chunksOfGo, List.flatten_cons]
      rw [ih _ (by simp at hl ⊢; omega)]
      exact List.take_append_drop n (x :: xs)

theorem chunksOf_flatten (n : Nat) (hn : 1 ≤ n) (l : List α) :
    (chunksOf n l).flatten = l :=
  chunksOfGo_flatten n hn l.length l le_rfl

theorem chunksOfGo_mem_length_le (n : Nat) (hn : 1 ≤ n) :
    ∀ (fuel : Nat) (l : List α), l.length ≤ fuel →
      ∀ c ∈ chunksOfGo n fuel l, c.length ≤ n := by
  intro fuel
  induction fuel with
  | zero =>
    intro l hl c hc
    have : l = [] := List.length_eq_zero.mp (Nat.le_zero.mp hl)
    subst this
    simp [chunksOfGo] at hc
  | succ f ih =>
    intro l hl c hc
    cases l with
    | nil => simp [chunksOfGo] at hc
    | cons x xs =>
      simp only [chunksOfGo, List.mem_cons] at hc
      rcases hc with rfl | hc
      · simp
      · exact ih _ (by simp at hl ⊢; omega) c hc

theorem chunksOf_mem_length_le (n : Nat) (hn : 1 ≤ n) (l : List α) :
    ∀ c ∈ chunksOf n l, c.length ≤ n :=
  chunksOfGo_mem_length_le n hn l.length l le_rfl

theorem obtainSeqIndex_length (center : Int) (numFrames radius : Nat) :
    (obtainSeqIndex center numFrames radius).length = 2 * radius + 1 := by
  rw [obtainSeqIndex, List.length_map, List.length_range]

theorem alignPose_ok_length (pose : List (List Int)) (t : Nat) (hp : pose ≠ []) :
    ∃ sel, alignPose pose t = Except.ok sel ∧ sel.length = t := by
  rw [alignPose]
  by_cases h : pose.length ≥ t
  · exact ⟨pose.take t, by rw [if_pos h], by simp; omega⟩
  · rw [if_neg h, List.getLast?_eq_getLast pose hp]
    exact ⟨_, rfl, by simp; omega⟩

theorem zipWith_append_split (d : Nat) :
    ∀ (g s : List (List Int)), (∀ r ∈ g, r.length = d) → g.length = s.length →
      (List.zipWith (· ++ ·) g s).map (List.take d) = g ∧
      (List.zipWith (· ++ ·) g s).map (List.drop d) = s := by
  intro g
  induction g with
  | nil =>
    intro s _ hlen
    cases s with
    | nil => simp
    | cons y ys => simp at hlen
  | cons x xs ih =>
    intro s hd hlen
    cases s with
    | nil => simp at hlen
    | cons y ys =>
      have hx : x.length = d := hd x (List.mem_cons_self x xs)
      have ih2 := ih ys (fun r hr => hd r (List.mem_cons_of_mem x hr))
        (by simp at hlen ⊢; omega)
      simp only [List.zipWith_cons_cons, List.map_cons]
      constructor
      · rw [ih2.1, ← hx, List.take_left]
      · rw [ih2.2, ← hx, List.drop_left]

/-! ## Claims -/

/-- C1. Pose alignment: for every non-empty pose sequence and target length at
least 1, if the pose has at least `target_len` rows the aligned result is
exactly its first `target_len` rows; otherwise it is the whole pose sequence
followed by its last row repeated `target_len - len(pose)` times, leading rows
unchanged. -/
theorem alignPose_spec (pose : List (List Int)) (targetLen : Nat)
    (hp : pose ≠ []) (_ht : 1 ≤ targetLen) :
    (targetLen ≤ pose.length → alignPose pose targetLen = Except.ok (pose.take targetLen)) ∧
    (pose.length < targetLen →
      alignPose pose targetLen =
        Except.ok (pose ++ List.replicate (targetLen - pose.length) (pose.getLast hp)) ∧
      (pose ++ List.replicate (targetLen - pose.length) (pose.getLast hp)).take pose.length
        = pose ∧
      (pose ++ List.replicate (targetLen - pose.length) (pose.getLast hp)).length
        = targetLen) := by
  constructor
  · intro h
    rw [alignPose, if_pos h]
  · intro h
    refine ⟨?_, List.take_left pose _, ?_⟩
    · rw [alignPose, if_neg (by omega), List.getLast?_eq_getLast pose hp]
    · simp
      omega

theorem alignPose_spec_witness :
    alignPose [[1], [2]] 5 = Except.ok [[1], [2], [2], [2], [2]] ∧
    alignPose [[1], [2], [3]] 2 = Except.ok [[1], [2]] := by
  have h := alignPose_spec [[1], [2]] 5 (by decide) (by decide)
  have h2 := alignPose_spec [[1], [2], [3]] 2 (by decide) (by decide)
  refine ⟨?_, ?_⟩
  · rw [(h.2 (by decide)).1]
    rfl
  · rw [h2.1 (by decide)]
    rfl

/-- C4. Aligned-artifact invariant: the persisted aligned array has exactly as
many rows as the expression sequence, its expression columns are the decoder
output unchanged, and only the pose component is truncated or extended. -/
theorem alignedArtifact_spec (genExp pose : List (List Int)) (d : Nat)
    (hp : pose ≠ []) (hd : ∀ r ∈ genExp, r.length = d) :
    ∃ sel out,
      alignPose pose genExp.length = Except.ok sel ∧
      alignedArtifact genExp pose = Except.ok out ∧
      out.length = genExp.length ∧
      sel.length = genExp.length ∧
      out.map (List.take d) = genExp ∧
      out.map (List.drop d) = sel := by
  obtain ⟨sel, hsel, hlen⟩ := alignPose_ok_length pose genExp.length hp
  have hsplit := zipWith_append_split d genExp sel hd hlen.symm
  refine ⟨sel, List.zipWith (· ++ ·) genExp sel, hsel, ?_, ?_, hlen, hsplit.1, hsplit.2⟩
  · rw [alignedArtifact, hsel]
    rfl
  · rw [List.length_zipWith]
    omega

theorem alignedArtifact_spec_witness :
    ∃ sel out,
      alignPose [[9]] ([[1, 2], [3, 4]] : List (List Int)).length = Except.ok sel ∧
      alignedArtifact [[1, 2], [3, 4]] [[9]] = Except.ok out ∧
      out.length = ([[1, 2], [3, 4]] : List (List Int)).length ∧
      sel.length = ([[1, 2], [3, 4]] : List (List Int)).length ∧
      out.map (List.take 2) = [[1, 2], [3, 4]] ∧
      out.map (List.drop 2) = sel :=
  alignedArtifact_spec [[1, 2], [3, 4]] [[9]] 2 (by decide) (by decide)

/-- C6 counterexample: with an empty expression sequence and a non-empty pose
sequence, `generate_expression_params` raises nothing at all — it persists an
empty aligned array — contradicting the claim that every input with an empty
pose or expression sequence fails with an alignment error. -/
theorem alignedArtifact_empty_exp_cex :
    alignedArtifact ([] : List (List Int)) [[0, 0]] = Except.ok [] := by rfl

/-- C6 amended: only an empty pose sequence combined with a non-empty
expression sequence makes the stage fail, and the failure is numpy's
IndexError from `pose[-1]` (there is no dedicated alignment error), returned
to the caller uncaught; with an empty expression sequence the stage succeeds
and persists an empty array. -/
theorem alignedArtifact_empty_cases (genExp pose : List (List Int)) :
    (pose = [] → genExp ≠ [] → alignedArtifact genExp pose = Except.error "IndexError") ∧
    (genExp = [] → alignedArtifact genExp pose = Except.ok []) := by
  constructor
  · rintro rfl hg
    have hlen : 0 < genExp.length := List.length_pos.mpr hg
    have hcond : ¬ (([] : List (List Int)).length ≥ genExp.length) := fun hc =>
      hg (List.length_eq_zero.mp (Nat.le_zero.mp hc))
    rw [alignedArtifact, alignPose, if_neg hcond]
    rfl
  · rintro rfl
    simp [alignedArtifact, alignPose, Except.map]

theorem alignedArtifact_empty_cases_witness :
    alignedArtifact [[1]] ([] : List (List Int)) = Except.error "IndexError" ∧
    alignedArtifact ([] : List (List Int)) [[1]] = Except.ok [] :=
  ⟨(alignedArtifact_empty_cases [[1]] []).1 rfl (by decide),
   (alignedArtifact_empty_cases [] [[1]]).2 rfl⟩

/-- C3. Sequence windower: for every length `L ≥ 1`, center in `[0, L)` and
radius, `obtain_seq_index` returns exactly `2*radius+1` indices, each in
`[0, L)`; for `center = 0` and `radius = 13` the first 13 indices are `0`,
and for `center = L - 1` the last 13 are `L - 1`. -/
theorem obtainSeqIndex_spec (L : Nat) (center : Int) (radius : Nat)
    (hL : 1 ≤ L) (hc0 : 0 ≤ center) (hcL : center < (L : Int)) :
    (obtainSeqIndex center L radius).length = 2 * radius + 1 ∧
    (∀ x ∈ obtainSeqIndex center L radius, 0 ≤ x ∧ x < (L : Int)) ∧
    (center = 0 → radius = 13 →
      (obtainSeqIndex center L radius).take 13 = List.replicate 13 0) ∧
    (center = (L : Int) - 1 → radius = 13 →
      (obtainSeqIndex center L radius).drop 14 = List.replicate 13 ((L : Int) - 1)) := by
  refine ⟨obtainSeqIndex_length center L radius, ?_, ?_, ?_⟩
  · intro x hx
    rw [obtainSeqIndex] at hx
    simp only [List.mem_map, List.mem_range] at hx
    obtain ⟨o, ho, rfl⟩ := hx
    constructor
    · split_ifs <;> omega
    · split_ifs <;> omega
  · rintro rfl rfl
    apply List.ext_getElem
    · rw [List.length_take, obtainSeqIndex_length, List.length_replicate]
      omega
    · intro i h1 h2
      have hi : i < 13 := by
        rw [List.length_take, obtainSeqIndex_length] at h1
        omega
      rw [List.getElem_take]
      simp only [obtainSeqIndex, List.getElem_map, List.getElem_range,
        List.getElem_replicate]
      split_ifs <;> omega
  · rintro rfl rfl
    apply List.ext_getElem
    · rw [List.length_drop, obtainSeqIndex_length, List.length_replicate]
    · intro i h1 h2
      have hi : i < 13 := by
        rw [List.length_drop, obtainSeqIndex_length] at h1
        omega
      rw [List.getElem_drop]
      simp only [obtainSeqIndex, List.getElem_map, List.getElem_range,
        List.getElem_replicate]
      split_ifs <;> omega

theorem obtainSeqIndex_spec_witness :
    (obtainSeqIndex 2 3 13).length = 2 * 13 + 1 ∧
    (∀ x ∈ obtainSeqIndex 2 3 13, 0 ≤ x ∧ x < (3 : Int)) ∧
    ((2 : Int) = 0 → 13 = 13 → (obtainSeqIndex 2 3 13).take 13 = List.replicate 13 0) ∧
    ((2 : Int) = (3 : Int) - 1 → 13 = 13 →
      (obtainSeqIndex 2 3 13).drop 14 = List.replicate 13 ((3 : Int) - 1)) :=
  obtainSeqIndex_spec 3 2 13 (by decide) (by decide) (by decide)

/-- C5 counterexample: with an audio track supplied (`silent = False`) and the
external encoding process exiting with status 1, the mux tail of
`render_video` raises nothing — the return value of `os.system` is discarded —
so the failure is not surfaced to the caller, contrary to the claim. -/
theorem muxStep_failure_not_surfaced_cex :
    (muxStep false "out.mp4" "audio.wav" 1).2 = none ∧
    MuxEffect.runShell (ffmpegCmd "audio.wav" "out.mp4") 1 ∈
      (muxStep false "out.mp4" "audio.wav" 1).1 := by
  exact ⟨rfl, by decide⟩

/-- C5 amended: whenever an audio track is supplied, the mux step invokes the
external process and ignores its exit status — no failure is surfaced to the
caller — and the temporary silent video file is removed on every execution
path, whatever the exit status. -/
theorem muxStep_amended (outputPath wavPath : String) (ffmpegExit : Int) :
    (muxStep false outputPath wavPath ffmpegExit).2 = none ∧
    MuxEffect.removeFile "silent.mp4" ∈ (muxStep false outputPath wavPath ffmpegExit).1 ∧
    MuxEffect.runShell (ffmpegCmd wavPath outputPath) ffmpegExit ∈
      (muxStep false outputPath wavPath ffmpegExit).1 := by
  refine ⟨rfl, ?_, ?_⟩ <;> simp [muxStep]

theorem toUint8_transformPix_bounds (x : ℚ) :
    toUint8 (transformPix x) = ⌊transformPix x⌋ ∧
    0 ≤ toUint8 (transformPix x) ∧ toUint8 (transformPix x) ≤ 255 := by
  have hc1 : -1 ≤ clampPix x := le_max_left _ _
  have hc2 : clampPix x ≤ 1 := max_le (by norm_num) (min_le_right x 1)
  have ht1 : 0 ≤ transformPix x := by
    rw [transformPix]
    have h2 : (0 : ℚ) ≤ (clampPix x + 1) / 2 := by linarith
    nlinarith
  have ht2 : transformPix x ≤ 255 := by
    rw [transformPix]
    linarith
  have htr : truncTowardZero (transformPix x) = ⌊transformPix x⌋ := if_pos ht1
  have hf0 : 0 ≤ ⌊transformPix x⌋ := Int.floor_nonneg.mpr ht1
  have hf255 : ⌊transformPix x⌋ < 256 :=
    Int.floor_lt.mpr (show transformPix x < ((256 : ℤ) : ℚ) by push_cast; linarith)
  have hmod : ⌊transformPix x⌋ % 256 = ⌊transformPix x⌋ := Int.emod_eq_of_lt hf0 hf255
  refine ⟨?_, ?_, ?_⟩ <;> rw [toUint8, htr, hmod]
  · omega
  · omega

/-- C9. Output normalization: after clamping to `[-1, 1]` and applying
`(x + 1) / 2 * 255`, every pixel value lies in `[0, 255]`, so the uint8 cast
truncates without wrapping, and every pixel of every rendered frame is a
valid 8-bit value. -/
theorem renderPixel_range (x : ℚ) (netG : List (List ℚ) → List ℚ)
    (expSeq : List (List ℚ)) (radius splitSize : Nat) :
    (0 ≤ transformPix x ∧ transformPix x ≤ 255) ∧
    toUint8 (transformPix x) = ⌊transformPix x⌋ ∧
    (0 ≤ toUint8 (transformPix x) ∧ toUint8 (transformPix x) ≤ 255) ∧
    (∀ frame ∈ renderVideoAuto netG expSeq radius splitSize, ∀ p ∈ frame,
      0 ≤ p ∧ p ≤ 255) := by
  have hc1 : -1 ≤ clampPix x := le_max_left _ _
  have hc2 : clampPix x ≤ 1 := max_le (by norm_num) (min_le_right x 1)
  have ht1 : 0 ≤ transformPix x := by
    rw [transformPix]
    have h2 : (0 : ℚ) ≤ (clampPix x + 1) / 2 := by linarith
    nlinarith
  have ht2 : transformPix x ≤ 255 := by
    rw [transformPix]
    linarith
  obtain ⟨he, hb0, hb255⟩ := toUint8_transformPix_bounds x
  refine ⟨⟨ht1, ht2⟩, he, ⟨hb0, hb255⟩, ?_⟩
  intro frame hframe p hp
  rw [renderVideoAuto] at hframe
  obtain ⟨img, himg, rfl⟩ := List.mem_map.mp hframe
  obtain ⟨c, hc, himg2⟩ := List.mem_flatten.mp himg
  obtain ⟨chunk, _, rfl⟩ := List.mem_map.mp hc
  obtain ⟨w, _, rfl⟩ := List.mem_map.mp himg2
  obtain ⟨q, hq, rfl⟩ := List.mem_map.mp hp
  obtain ⟨r, _, rfl⟩ := List.mem_map.mp hq
  exact (toUint8_transformPix_bounds r).2

theorem renderPixel_range_witness :
    (0 ≤ transformPix 3 ∧ transformPix 3 ≤ 255) ∧
    toUint8 (transformPix 3) = ⌊transformPix 3⌋ ∧
    (0 ≤ toUint8 (transformPix 3) ∧ toUint8 (transformPix 3) ≤ 255) ∧
    (∀ frame ∈ renderVideoAuto (fun _ => ([2] : List ℚ)) [[1]] 0 1, ∀ p ∈ frame,
      0 ≤ p ∧ p ≤ 255) :=
  renderPixel_range 3 (fun _ => ([2] : List ℚ)) [[1]] 0 1

theorem renderVideoAuto_eq_map (netG : List (List ℚ) → List ℚ)
    (expSeq : List (List ℚ)) (radius splitSize : Nat) (hs : 1 ≤ splitSize) :
    renderVideoAuto netG expSeq radius splitSize =
      (buildWindows expSeq radius).map
        (fun w => ((netG w).map clampPix).map (fun p => toUint8 ((p + 1) / 2 * 255))) := by
  rw [renderVideoAuto, ← List.map_flatten, chunksOf_flatten splitSize hs, List.map_map]
  rfl

/-- C2. Batched rendering is batch-size invariant: for any `split_size ≥ 1`,
the concatenation of the per-chunk generator outputs equals rendering with
`split_size = 1`, has one output frame per input frame, equals the per-frame
map over the windows in original order, and each chunk holds at most
`split_size` frames. -/
theorem renderVideo_batch_invariant (netG : List (List ℚ) → List ℚ)
    (expSeq : List (List ℚ)) (radius splitSize : Nat) (hs : 1 ≤ splitSize) :
    renderVideoAuto netG expSeq radius splitSize = renderVideoAuto netG expSeq radius 1 ∧
    (renderVideoAuto netG expSeq radius splitSize).length = expSeq.length ∧
    renderVideoAuto netG expSeq radius splitSize =
      (buildWindows expSeq radius).map
        (fun w => ((netG w).map clampPix).map (fun p => toUint8 ((p + 1) / 2 * 255))) ∧
    (∀ c ∈ chunksOf splitSize (buildWindows expSeq radius), c.length ≤ splitSize) := by
  have h1 := renderVideoAuto_eq_map netG expSeq radius splitSize hs
  have h2 := renderVideoAuto_eq_map netG expSeq radius 1 le_rfl
  refine ⟨h1.trans h2.symm, ?_, h1, chunksOf_mem_length_le splitSize hs _⟩
  rw [h1, List.length_map, buildWindows, List.length_map, List.length_range]

theorem renderVideo_batch_invariant_witness :
    renderVideoAuto (fun _ => ([0] : List ℚ)) [[1], [2], [3]] 1 2 =
      renderVideoAuto (fun _ => ([0] : List ℚ)) [[1], [2], [3]] 1 1 ∧
    (renderVideoAuto (fun _ => ([0] : List ℚ)) [[1], [2], [3]] 1 2).length =
      ([[1], [2], [3]] : List (List ℚ)).length ∧
    renderVideoAuto (fun _ => ([0] : List ℚ)) [[1], [2], [3]] 1 2 =
      (buildWindows [[1], [2], [3]] 1).map
        (fun w => (((fun _ => ([0] : List ℚ)) w).map clampPix).map
          (fun p => toUint8 ((p + 1) / 2 * 255))) ∧
    (∀ c ∈ chunksOf 2 (buildWindows [[1], [2], [3]] 1), c.length ≤ 2) :=
  renderVideo_batch_invariant (fun _ => ([0] : List ℚ)) [[1], [2], [3]] 1 2 (by decide)

theorem mem_subDict_iff {V : Type} (n : Nat) (p : List Char) (hn : n = p.length)
    (sd : List (List Char × V)) (r : List Char) (v : V) :
    (r, v) ∈ subDict n p sd ↔ (p ++ r, v) ∈ sd := by
  subst hn
  rw [subDict]
  simp only [List.mem_map, List.mem_filter]
  constructor
  · rintro ⟨⟨k, w⟩, ⟨hk, hpre⟩, heq⟩
    have hpre2 : k.take p.length = p := by simpa using hpre
    rw [Prod.mk.injEq] at heq
    obtain ⟨hdrop, rfl⟩ := heq
    have hk2 : k = p ++ r := by
      rw [← hpre2, ← hdrop]
      exact (List.take_append_drop _ k).symm
    rw [← hk2]
    exact hk
  · intro hmem
    refine ⟨(p ++ r, v), ⟨hmem, ?_⟩, ?_⟩
    · simp [List.take_left]
    · rw [Prod.mk.injEq]
      exact ⟨by simp [List.drop_left], rfl⟩

theorem subDict_cons_of_ne {V : Type} (n : Nat) (p k : List Char) (v : V)
    (sd : List (List Char × V)) (hk : k.take n ≠ p) :
    subDict n p ((k, v) :: sd) = subDict n p sd := by
  simp [subDict, List.filter_cons, hk]

theorem loadStrict_error_of_missing {V : Type} (required : List (List Char))
    (sub : List (List Char × V)) (r : List Char) (hr : r ∈ required)
    (habs : ∀ kv ∈ sub, kv.1 ≠ r) :
    loadStrict required sub = Except.error "Missing key(s) in state_dict" := by
  rw [loadStrict, if_neg]
  intro hall
  rw [List.all_eq_true] at hall
  have h2 := hall r hr
  rw [List.any_eq_true] at h2
  obtain ⟨kv, hkv, heq⟩ := h2
  exact habs kv hkv (by simpa using heq)

/-- C7. Checkpoint partitioning: the loader splits the persisted weight
mapping into three disjoint sub-mappings by stripping the fixed literal
prefixes and routing the stripped remainder; a key matching none of the three
is routed to no sub-mapping; strict loading fails loudly when a required
parameter name is absent from its target sub-mapping. -/
theorem getEvalModel_partition {V : Type} (sd : List (List Char × V)) :
    (∀ (r : List Char) (v : V),
      (r, v) ∈ subDict 16 contentKey sd ↔ (contentKey ++ r, v) ∈ sd) ∧
    (∀ (r : List Char) (v : V),
      (r, v) ∈ subDict 14 styleKey sd ↔ (styleKey ++ r, v) ∈ sd) ∧
    (∀ (r : List Char) (v : V),
      (r, v) ∈ subDict 8 decoderKey sd ↔ (decoderKey ++ r, v) ∈ sd) ∧
    (∀ k : List Char,
      ¬(k.take 16 = contentKey ∧ k.take 14 = styleKey) ∧
      ¬(k.take 16 = contentKey ∧ k.take 8 = decoderKey) ∧
      ¬(k.take 14 = styleKey ∧ k.take 8 = decoderKey)) ∧
    (∀ (k : List Char) (v : V), k.take 16 ≠ contentKey → k.take 14 ≠ styleKey →
      k.take 8 ≠ decoderKey →
      subDict 16 contentKey ((k, v) :: sd) = subDict 16 contentKey sd ∧
      subDict 14 styleKey ((k, v) :: sd) = subDict 14 styleKey sd ∧
      subDict 8 decoderKey ((k, v) :: sd) = subDict 8 decoderKey sd) ∧
    (∀ (required : List (List Char)) (sub : List (List Char × V)) (r : List Char),
      r ∈ required → (∀ kv ∈ sub, kv.1 ≠ r) →
      loadStrict required sub = Except.error "Missing key(s) in state_dict") := by
  refine ⟨fun r v => mem_subDict_iff 16 contentKey (by decide) sd r v,
    fun r v => mem_subDict_iff 14 styleKey (by decide) sd r v,
    fun r v => mem_subDict_iff 8 decoderKey (by decide) sd r v,
    ?_, ?_, fun required sub r => loadStrict_error_of_missing required sub r⟩
  · intro k
    refine ⟨?_, ?_, ?_⟩
    · rintro ⟨h1, h2⟩
      have h3 := congrArg (List.take 14) h1
      rw [List.take_take] at h3
      norm_num at h3
      rw [h2] at h3
      exact absurd h3 (by decide)
    · rintro ⟨h1, h2⟩
      have h3 := congrArg (List.take 8) h1
      rw [List.take_take] at h3
      norm_num at h3
      rw [h2] at h3
      exact absurd h3 (by decide)
    · rintro ⟨h1, h2⟩
      have h3 := congrArg (List.take 8) h1
      rw [List.take_take] at h3
      norm_num at h3
      rw [h2] at h3
      exact absurd h3 (by decide)
  · intro k v hc hs hd
    exact ⟨subDict_cons_of_ne 16 contentKey k v sd hc,
      subDict_cons_of_ne 14 styleKey k v sd hs,
      subDict_cons_of_ne 8 decoderKey k v sd hd⟩

theorem getEvalModel_partition_witness :
    (("w".toList, (1 : Int)) ∈ subDict 16 contentKey
      [("content_encoder.w".toList, (1 : Int)), ("junk".toList, 3)]) ∧
    loadStrict ["missing".toList] ([] : List (List Char × Int)) =
      Except.error "Missing key(s) in state_dict" := by
  have h := getEvalModel_partition (V := Int)
    [("content_encoder.w".toList, 1), ("junk".toList, 3)]
  exact ⟨(h.1 "w".toList 1).mpr (by decide),
    h.2.2.2.2.2 ["missing".toList] [] "missing".toList (by decide) (by decide)⟩

theorem replicateMask_getD : ∀ (a b i : Nat),
    (List.replicate a true ++ List.replicate b false).getD i false = decide (i < a) := by
  intro a
  induction a with
  | zero =>
    intro b
    induction b with
    | zero => intro i; simp [List.getD]
    | succ m ihb =>
      intro i
      cases i with
      | zero => simp
      | succ j =>
        simp only [List.replicate, List.nil_append, List.getD_cons_succ] at ihb ⊢
        exact ihb j
  | succ a iha =>
    intro b i
    cases i with
    | zero => simp [List.replicate_succ]
    | succ j =>
      simp only [List.replicate_succ, List.cons_append, List.getD_cons_succ]
      rw [iha b j]
      exact decide_eq_decide.mpr (by omega)

/-- C8. Style clip sampling: with enough source material the sampler returns
exactly `max_len` consecutive vectors from `start_idx` and no mask; with a
shorter source it returns all vectors padded with zero vectors up to
`max_len`, and a boolean mask true exactly at the real positions. -/
theorem getVideoStyleClip_spec (source : List (List Int)) (d styleMaxLen startIdx : Nat) :
    (styleMaxLen ≤ source.length → startIdx + styleMaxLen ≤ source.length →
      ((getVideoStyleClip source d styleMaxLen startIdx).1.length = styleMaxLen ∧
       (getVideoStyleClip source d styleMaxLen startIdx).2 = none ∧
       (getVideoStyleClip source d styleMaxLen startIdx).1
         = (source.drop startIdx).take styleMaxLen)) ∧
    (source.length < styleMaxLen →
      ((getVideoStyleClip source d styleMaxLen startIdx).1.length = styleMaxLen ∧
       (getVideoStyleClip source d styleMaxLen startIdx).1.take source.length = source ∧
       (getVideoStyleClip source d styleMaxLen startIdx).1.drop source.length
         = List.replicate (styleMaxLen - source.length) (List.replicate d 0) ∧
       ∃ mask, (getVideoStyleClip source d styleMaxLen startIdx).2 = some mask ∧
         mask.length = styleMaxLen ∧
         ∀ i, mask.getD i false = decide (i < source.length))) := by
  constructor
  · intro h1 h2
    rw [getVideoStyleClip, if_pos h1]
    refine ⟨?_, rfl, rfl⟩
    rw [List.length_take, List.length_drop]
    omega
  · intro h1
    have hneg : ¬ styleMaxLen ≤ source.length := by omega
    rw [getVideoStyleClip, if_neg hneg]
    refine ⟨?_, List.take_left source _, List.drop_left source _,
      List.replicate source.length true ++
        List.replicate (styleMaxLen - source.length) false, rfl, ?_, ?_⟩
    · rw [List.length_append, List.length_replicate]
      omega
    · rw [List.length_append, List.length_replicate, List.length_replicate]
      omega
    · intro i
      exact replicateMask_getD source.length (styleMaxLen - source.length) i

theorem getVideoStyleClip_spec_witness :
    ((getVideoStyleClip [[7], [8]] 1 4 0).1.length = 4 ∧
     (getVideoStyleClip [[7], [8]] 1 4 0).1.take ([[7], [8]] : List (List Int)).length
       = [[7], [8]] ∧
     (getVideoStyleClip [[7], [8]] 1 4 0).1.drop ([[7], [8]] : List (List Int)).length
       = List.replicate (4 - ([[7], [8]] : List (List Int)).length) (List.replicate 1 0) ∧
     ∃ mask, (getVideoStyleClip [[7], [8]] 1 4 0).2 = some mask ∧
       mask.length = 4 ∧
       ∀ i, mask.getD i false = decide (i < ([[7], [8]] : List (List Int)).length)) ∧
    ((getVideoStyleClip [[7], [8], [9]] 1 2 0).1.length = 2 ∧
     (getVideoStyleClip [[7], [8], [9]] 1 2 0).2 = none ∧
     (getVideoStyleClip [[7], [8], [9]] 1 2 0).1
       = (([[7], [8], [9]] : List (List Int)).drop 0).take 2) :=
  ⟨(getVideoStyleClip_spec [[7], [8]] 1 4 0).2 (by decide),
   (getVideoStyleClip_spec [[7], [8], [9]] 1 2 0).1 (by decide) (by decide)⟩

theorem lastChars_eq_iff (s path : List Char) (n : Nat) (hs : s.length = n) :
    lastChars n path = s ↔ s <:+ path := by
  constructor
  · intro h
    rw [← h, lastChars]
    exact List.drop_suffix _ _
  · rintro ⟨t, rfl⟩
    rw [lastChars]
    have h2 : (t ++ s).length - n = t.length := by
      rw [List.length_append, hs]
      omega
    rw [h2, List.drop_left]

/-- C10. The two source variants are equivalent: for every pose path ending in
`npy` or `mat` and the same model functions, the `generate_expression_params`
tails persist identical aligned arrays, and the `render_video` loops produce
identical transformed frame sequences (device placement aside). -/
theorem variants_equivalent
    (npyLoad matLoad : List Char → List (List Int)) (genExp : List (List Int))
    (path : List Char) (netG : List (List ℚ) → List ℚ) (expSeq : List (List ℚ))
    (radius splitSize : Nat)
    (h : "npy".toList <:+ path ∨ "mat".toList <:+ path) :
    generateAutoTail npyLoad matLoad genExp path =
      some (generateGpufixTail npyLoad matLoad genExp path) ∧
    renderVideoAuto netG expSeq radius splitSize =
      renderVideoGpufix netG expSeq radius splitSize := by
  refine ⟨?_, rfl⟩
  rcases h with h | h
  · have h1 : lastChars 3 path = "npy".toList :=
      (lastChars_eq_iff "npy".toList path 3 (by decide)).mpr h
    rw [generateAutoTail, generateGpufixTail, loadPoseAuto, loadPoseGpufix, if_pos h1,
      if_pos (List.isSuffixOf_iff_suffix.mpr h)]
    rfl
  · have h1 : lastChars 3 path = "mat".toList :=
      (lastChars_eq_iff "mat".toList path 3 (by decide)).mpr h
    have hne : lastChars 3 path ≠ "npy".toList := by
      rw [h1]
      decide
    have hnpy : ¬ ("npy".toList.isSuffixOf path = true) := by
      rw [List.isSuffixOf_iff_suffix]
      intro hsuf
      exact hne ((lastChars_eq_iff "npy".toList path 3 (by decide)).mpr hsuf)
    rw [generateAutoTail, generateGpufixTail, loadPoseAuto, loadPoseGpufix,
      if_neg hne, if_pos h1, if_neg hnpy]
    rfl

theorem variants_equivalent_witness :
    generateAutoTail (fun _ => [[1]]) (fun _ => [[2]]) [[3]] "pose.mat".toList =
      some (generateGpufixTail (fun _ => [[1]]) (fun _ => [[2]]) [[3]] "pose.mat".toList) ∧
    renderVideoAuto (fun _ => ([0] : List ℚ)) [[1]] 0 1 =
      renderVideoGpufix (fun _ => ([0] : List ℚ)) [[1]] 0 1 :=
  variants_equivalent (fun _ => [[1]]) (fun _ => [[2]]) [[3]] "pose.mat".toList
    (fun _ => ([0] : List ℚ)) [[1]] 0 1 (Or.inr (by decide))

end STL
